import Mathlib

/-!
# N-dimensional array slicing engine (`ndarray.hh`, `functional.hh`)

A shallow embedding of the `analysis` headers.

* `std::valarray<X>` is a `List X`.
* `size_t` values are natural numbers; every `size_t` operation of the source is
  followed by a reduction modulo `SIZE_MOD = 2 ^ 64`. `int` values are integers;
  a conversion of a `size_t` sum back to `int` is `toInt`.
* A call that throws returns `Except.error` with the exception thrown; a call
  that reads outside a `valarray`, divides by zero, or asks for a `valarray`
  that cannot be allocated returns `Except.error Err.undefined`.
* A view (`ndslice`) holds a pointer to its owner in the source; here the
  owner's state is passed explicitly to the operations of the view.
* The variadic templates `index<REM,DEP>` and `slice<REM,DEP>` recurse on the
  argument pack; the embedding recurses on the list of arguments, `DEP` being
  the position of the head of the list.
* The fill constructor, whose buffer size comes from the shape alone, takes
  the number of elements the allocator can provide as an argument.
* The threads of `parallelmap` are run one after the other; that the order of
  their writes does not matter is a theorem.
* `std::sort` and `std::unique` stand for the standard library's functions,
  modelled from their contracts.
-/

namespace analysis

/-! ## Machine integers -/

/-- Number of values of `size_t` (64 bits). -/
def SIZE_MOD : Nat := 2 ^ 64

/-- Conversion of an integer to `size_t`. -/
def toSizeT (x : Int) : Nat := (x % (SIZE_MOD : Int)).toNat

/-- Conversion of an integer to `int` (32 bits, two's complement). -/
def toInt (x : Int) : Int := (x + 2 ^ 31) % 2 ^ 32 - 2 ^ 31

/-- Largest element count for which `(size_t)floor(q)` returns `q` itself: the
quotient goes through `double`, which is exact below `2 ^ 53`. A count at or
above this bound cannot be allocated as a `valarray` either. -/
def EXACT_DOUBLE : Nat := 2 ^ 53

/-- What a call can end with instead of a result. -/
inductive Err where
  | length_error
  | invalid_argument
  | out_of_range
  | undefined
  deriving DecidableEq, Repr

deriving instance DecidableEq for Except

/-! ## functional.hh -/

/-- `range_incl<size_t>(from, to, step)`:
`elems = (size_t)floor((to-from)/step) + 1; result[i] = from+step*i`. -/
def range_incl (from_ to_ step : Nat) : Except Err (List Nat) :=
  if step = 0 then .error .undefined
  else
    let q := toSizeT ((to_ : Int) - (from_ : Int)) / step
    if q < EXACT_DOUBLE then
      .ok ((List.range (q + 1)).map fun i => (from_ + step * i) % SIZE_MOD)
    else .error .undefined

/-- `range_excl<size_t>(begin, end, step)`:
`elems = (size_t)floor((end-begin)/step); result[i] = begin+step*i`. -/
def range_excl (begin_ end_ step : Nat) : Except Err (List Nat) :=
  if step = 0 then .error .undefined
  else
    let q := toSizeT ((end_ : Int) - (begin_ : Int)) / step
    if q < EXACT_DOUBLE then
      .ok ((List.range q).map fun i => (begin_ + step * i) % SIZE_MOD)
    else .error .undefined

/-! ## ndarray.hh: data model -/

/-- One argument of `slice`: an `int`, a `std::valarray<int>` (`LIST`), a
`std::tuple<int,int>` (`RANGE(begin,end)`, `ALL`) or a
`std::tuple<int,int,int>` (`RANGE(begin,end,step)`). -/
inductive Spec where
  | index (idx : Int)
  | list (l : List Int)
  | range (b e : Int)
  | rangeStep (b e s : Int)
  deriving DecidableEq, Repr

/-- `static const std::tuple<int,int> ALL = std::make_tuple(0,-1)`. -/
def ALL : Spec := .range 0 (-1)

/-- `RANGE(begin,end)`. -/
def RANGE (b e : Int) : Spec := .range b e

/-- `LIST(idx1,idx2,...)`. -/
def LIST (l : List Int) : Spec := .list l

/-- The class `ndarray<T>`: the `std::valarray<T>` base (`data`) and the
members `_shape` and `_size`. -/
structure ndarray (T : Type) where
  data : List T
  _shape : List Nat
  _size : List Nat
  deriving DecidableEq, Repr

/-- The class `ndslice<T>`, without the pointer `_arr` to its owner. -/
structure ndslice where
  _indexes : List Nat
  _shape : List Nat
  deriving DecidableEq, Repr

/-- The loop `for (i = shape.size() - 1; i > 0; i--) _size[i-1] *= _size[i]`
run on a copy of the shape: entry `d` becomes `shape[d] * _size[d+1]`. -/
def sizeTable : List Nat → List Nat
  | [] => []
  | s :: rest =>
    match sizeTable rest with
    | [] => [s]
    | t :: ts => (s * t % SIZE_MOD) :: t :: ts

namespace ndarray

variable {T : Type}

/-- `void reshape(std::valarray<size_t> shape)`; returns the outcome and the
state of the array after the call. -/
def reshape (a : ndarray T) (shape : List Nat) : Except Err Unit × ndarray T :=
  match shape with
  | [] => (.error .undefined, a)
  | s0 :: rest =>
    let size := rest.foldl (fun acc x => acc * x % SIZE_MOD) s0
    if size = a.data.length then
      let a1 : ndarray T := { a with _shape := shape }
      let a2 : ndarray T := { a1 with _size := sizeTable a1._shape }
      (.ok (), a2)
    else
      (.error .length_error, a)

/-- A constructor ends with `reshape(shape)`: an exception of `reshape` leaves
the constructor, otherwise the object is the state after the call. -/
def finish (r : Except Err Unit × ndarray T) : Except Err (ndarray T) :=
  match r.1 with
  | .ok _ => .ok r.2
  | .error e => .error e

/-- `ndarray(T init, std::valarray<size_t> shape)`. The test
`shape.size() == 0` builds a `std::length_error` and does not throw it.
`capacity` is the number of elements the allocator can provide when the
constructor runs: `resize(size,init)` for more elements throws `bad_alloc` (or
is undefined, the byte count wrapping) and no array is built. -/
def fill (init : T) (shape : List Nat) (capacity : Nat) : Except Err (ndarray T) :=
  let size := shape.foldl (fun acc x => acc * x % SIZE_MOD) 1
  if size ≤ capacity then
    let a0 : ndarray T := { data := List.replicate size init, _shape := [], _size := [] }
    finish (a0.reshape shape)
  else .error .undefined

/-- `ndarray(std::valarray<T> flat, std::valarray<size_t> shape = {})`. -/
def ofFlat (flat : List T) (shape : List Nat) : Except Err (ndarray T) :=
  let shape := if shape.length = 0 then [flat.length] else shape
  let a0 : ndarray T := { data := flat, _shape := [], _size := [] }
  finish (a0.reshape shape)

/-- `template<int REM, int DEP, ...> size_t index(D first, Ds... rest)` and its
end condition `index(D first)`, chosen for a single argument. -/
def index_rec (a : ndarray T) : Nat → List Int → Except Err Nat
  | _, [] => .error .undefined
  | DEP, [first] =>
    if first ≥ 0 then .ok (toSizeT first)
    else match a._size[DEP]? with
      | some sz => .ok (toSizeT (first + sz))
      | none => .error .undefined
  | DEP, first :: r :: rest =>
    let here : Except Err Nat :=
      if first ≥ 0 then .ok (toSizeT first)
      else match a._size[DEP]? with
        | some sz => .ok (toSizeT (first + sz))
        | none => .error .undefined
    match here, a._size[DEP + 1]?, index_rec a (DEP + 1) (r :: rest) with
    | .ok h, some st, .ok sub => .ok ((h * st + sub) % SIZE_MOD)
    | _, _, _ => .error .undefined

/-- `T index(Ds... spec)`. -/
def index (a : ndarray T) (spec : List Int) : Except Err T :=
  if spec.length = a._size.length then
    match a.index_rec 0 spec with
    | .ok p =>
      match a.data[p]? with
      | some x => .ok x
      | none => .error .undefined
    | .error e => .error e
  else .error .out_of_range

/-- The four overloads of `level<DEP>`. -/
def level (a : ndarray T) (DEP : Nat) : Spec → Except Err (List Nat)
  | .index idx =>
    if idx < 0 then
      match a._shape[DEP]? with
      | some dim => .ok [toSizeT (idx + dim)]
      | none => .error .undefined
    else .ok [toSizeT idx]
  | .list l =>
    match a._shape[DEP]? with
    | some dim => .ok (l.map fun x => if x < 0 then toSizeT (x + dim) else toSizeT x)
    | none => .error .undefined
  | .range b e =>
    match a._shape[DEP]? with
    | some dim =>
      let begin_ := if b < 0 then toInt (b + dim) else b
      let end_ := if e < 0 then toInt (e + dim) else e
      range_incl (toSizeT begin_) (toSizeT end_) 1
    | none =>
      if b < 0 ∨ e < 0 then .error .undefined
      else range_incl (toSizeT b) (toSizeT e) 1
  | .rangeStep b e s =>
    match a._shape[DEP]? with
    | some dim =>
      let begin_ := if b < 0 then toInt (b + dim) else b
      let end_ := if e < 0 then toInt (e + dim) else e
      range_incl (toSizeT begin_) (toSizeT end_) (toSizeT s)
    | none =>
      if b < 0 ∨ e < 0 then .error .undefined
      else range_incl (toSizeT b) (toSizeT e) (toSizeT s)

/-- The nested loops over `i < here.size()` and `j < sub.size()` that store
`sub[j]+here[i]*stride` at `indexes[pos i j]`, on a zero-initialised
`indexes(here.size()*sub.size())`. -/
def fillIndexes (here sub : List Nat) (stride : Nat) (pos : Nat → Nat → Nat) : List Nat :=
  (List.range here.length).foldl
    (fun acc i =>
      (List.range sub.length).foldl
        (fun acc j => acc.set (pos i j) ((sub.getD j 0 + here.getD i 0 * stride) % SIZE_MOD))
        acc)
    (List.replicate (here.length * sub.length) 0)

/-- `template<int REM, int DEP, ...> slice(std::vector<size_t> &shape, D first, Ds... rest)`
and its end condition `slice(shape, D first)`, chosen for a single argument.
Returns the indexes and the shape vector after the call. -/
def slice_rec (a : ndarray T) : Nat → List Nat → List Spec → Except Err (List Nat × List Nat)
  | _, _, [] => .error .undefined
  | DEP, shape, [first] =>
    match a.level DEP first with
    | .error e => .error e
    | .ok here =>
      let shape := if here.length > 1 then shape ++ [here.length] else shape
      if DEP + 1 < a._shape.length then
        match a._size[DEP + 1]? with
        | none => .error .undefined
        | some st =>
          match range_excl 0 st 1 with
          | .error e => .error e
          | .ok sub =>
            let shape := shape ++ a._size.drop (DEP + 1)
            .ok (fillIndexes here sub st (fun i j => i + here.length * j), shape)
      else .ok (here, shape)
  | DEP, shape, first :: r :: rest =>
    match a.level DEP first with
    | .error e => .error e
    | .ok here =>
      let shape := if here.length > 1 then shape ++ [here.length] else shape
      match slice_rec a (DEP + 1) shape (r :: rest) with
      | .error e => .error e
      | .ok (sub, shape) =>
        match a._size[DEP + 1]? with
        | some st => .ok (fillIndexes here sub st (fun i j => i * sub.length + j), shape)
        | none =>
          if here.length * sub.length = 0 then .ok ([], shape) else .error .undefined

/-- `ndslice<T> slice(Ds... spec)`. -/
def slice (a : ndarray T) (spec : List Spec) : Except Err ndslice :=
  match a.slice_rec 0 [] spec with
  | .error e => .error e
  | .ok (indexes, shape_cache) =>
    .ok { _indexes := indexes, _shape := if shape_cache.length = 0 then [1] else shape_cache }

/-- `(*slice._arr)[slice._indexes]` read as a `valarray`: the elements of the
owner at the positions of the view, in view order. -/
def gather (a : ndarray T) : List Nat → Except Err (List T)
  | [] => .ok []
  | p :: ps =>
    match a.data[p]?, gather a ps with
    | some x, .ok xs => .ok (x :: xs)
    | _, _ => .error .undefined

/-- `ndarray(ndslice<T> slice)`, the owner `*slice._arr` being `owner`. -/
def ofSlice (owner : ndarray T) (slice : ndslice) : Except Err (ndarray T) :=
  match owner.gather slice._indexes with
  | .error e => .error e
  | .ok d =>
    let a0 : ndarray T := { data := d, _shape := [], _size := [] }
    finish (a0.reshape slice._shape)

end ndarray

namespace ndslice

variable {T : Type}

/-- The element-wise copy behind `(*_arr)[_indexes] = vals`: `vals[i]` is
stored at position `_indexes[i]` of the owner's buffer, for `i` from 0 up. -/
def scatter : List T → List Nat → List T → Except Err (List T)
  | buf, [], _ => .ok buf
  | _, _ :: _, [] => .error .undefined
  | buf, p :: ps, x :: xs =>
    if p < buf.length then scatter (buf.set p x) ps xs else .error .undefined

/-- `void operator=(std::valarray<T> vals)`, on the owner `*_arr`; returns the
state of the owner after the call. -/
def assign (v : ndslice) (owner : ndarray T) (vals : List T) : Except Err (ndarray T) :=
  match scatter owner.data v._indexes vals with
  | .ok buf => .ok { owner with data := buf }
  | .error e => .error e

end ndslice

/-! ## Example arrays -/

/-- `ndarray<double> arr(range_excl<double>(0,16), list<size_t>(4,4))`, the
elements written as naturals. -/
def arr44 : ndarray Nat :=
  { data := List.range 16, _shape := [4, 4], _size := [16, 4] }

/-- `ndarray<double> arr(range_excl<double>(0,8), list<size_t>(2,2,2))`. -/
def arr222 : ndarray Nat :=
  { data := List.range 8, _shape := [2, 2, 2], _size := [8, 4, 2] }

/-- `ndarray<double> arr(range_excl<double>(0,40), list<size_t>(10,2,2))`. -/
def arr1022 : ndarray Nat :=
  { data := List.range 40, _shape := [10, 2, 2], _size := [40, 4, 2] }

/-- `ndarray<double> arr(list<double>(10,20))`, of shape `[2]`. -/
def arr2 : ndarray Nat :=
  { data := [10, 20], _shape := [2], _size := [2] }

/-- `ndarray<double> arr(range_excl<double>(0,4))`, of shape `[4]`. -/
def arr4 : ndarray Nat :=
  { data := List.range 4, _shape := [4], _size := [4] }

/-! ## The specification's vocabulary -/

/-- The specification's flat position `Σ_d i_d * stride[d]` of the indices
`i_d, i_{d+1}, ...`, `dims` being `shape[d..rank)` and `stride[d]` the product
of `shape[d+1..rank)`. -/
def flatPos : List Nat → List Nat → Nat
  | _, [] => 0
  | dims, i :: is => i * dims.tail.prod + flatPos dims.tail is

/-- Every position of the `i`-th list is a valid index of the `i`-th
dimension: below `dims[i]`. -/
def InRange : List Nat → List (List Nat) → Prop
  | _, [] => True
  | [], _ :: _ => False
  | n :: dims, p :: ps => (∀ x ∈ p, x < n) ∧ InRange dims ps

/-- `InRange` can be computed. -/
def InRange.dec : (dims : List Nat) → (P : List (List Nat)) → Decidable (InRange dims P)
  | _, [] => isTrue (by simp [InRange])
  | [], _ :: _ => isFalse (by simp [InRange])
  | n :: dims, p :: ps =>
    have := InRange.dec dims ps
    decidable_of_iff ((∀ x ∈ p, x < n) ∧ InRange dims ps) (by simp [InRange])

instance (dims : List Nat) (P : List (List Nat)) : Decidable (InRange dims P) :=
  InRange.dec dims P

/-- The writes of `fillIndexes` in the order the loops perform them: position
and value. -/
def cellWrites (here sub : List Nat) (stride : Nat) (pos : Nat → Nat → Nat) : List (Nat × Nat) :=
  (List.range here.length).flatMap fun i =>
    (List.range sub.length).map fun j =>
      (pos i j, (sub.getD j 0 + here.getD i 0 * stride) % SIZE_MOD)

namespace ndslice

variable {T : Type}

/-- The copy behind `(*_arr)[_indexes] = {val}`: the braced value selects
`indirect_array::operator=(const T&)`, which stores `val` at every position of
`_indexes`. -/
def fillAt : List T → List Nat → T → Except Err (List T)
  | buf, [], _ => .ok buf
  | buf, p :: ps, val =>
    if p < buf.length then fillAt (buf.set p val) ps val else .error .undefined

/-- `void operator=(T val)`, on the owner `*_arr`; returns the outcome and the
state of the owner after the call. -/
def assignScalar (v : ndslice) (owner : ndarray T) (val : T) : Except Err Unit × ndarray T :=
  if v._shape.length = 1 ∧ v._shape[0]? = some 1 then
    match fillAt owner.data v._indexes val with
    | .ok buf => (.ok (), { owner with data := buf })
    | .error e => (.error e, owner)
  else (.error .invalid_argument, owner)

end ndslice

/-- `arr.slice(1,2)` on the 4 by 4 array: the single position 6. -/
def view44_1_2 : ndslice := { _indexes := [6], _shape := [1] }

/-- The specification's resolution of an index `i` in a dimension of size
`n`: `i + n` if `i < 0`, else `i`. -/
def wrapIndex (i : Int) (n : Nat) : Int := if i < 0 then i + n else i

/-! ## functional.hh: `unique` -/

/-- `std::sort(first, last, less)` of the standard library: a permutation
sorted by `less`. Modelled by insertion sort on "not `less b a`"; for a
comparison under which distinct elements are never equivalent, such as `<` on
integers, the sorted permutation is unique. -/
def std_sort {T : Type} (less : T → T → Bool) (l : List T) : List T :=
  l.insertionSort (fun a b => less b a = false)

/-- `sortv(in, less)`: sorts the argument in place. -/
def sortv {T : Type} (less : T → T → Bool) (in_ : List T) : List T := std_sort less in_

/-- `std::unique` after an element `last` has been kept: an element equal to
the last kept one is dropped, any other is kept. -/
def std_unique_from {T : Type} (equal : T → T → Bool) (last : T) : List T → List T
  | [] => []
  | y :: rest =>
    if equal last y then std_unique_from equal last rest
    else y :: std_unique_from equal y rest

/-- `std::unique(first, last, equal)` of the standard library: the elements
before the returned iterator, the first of every run of equal neighbours. -/
def std_unique {T : Type} (equal : T → T → Bool) : List T → List T
  | [] => []
  | x :: rest => x :: std_unique_from equal x rest

/-- `unique(in, equal, less)`: `sortv`, `std::unique`, and a copy of the
`elems` elements before the returned iterator. -/
def unique {T : Type} (in_ : List T) (equal less : T → T → Bool) : List T :=
  std_unique equal (sortv less in_)

/-- The default `_equals<int>`. -/
def _equals (a b : Int) : Bool := decide (a = b)

/-- The default `std::less<int>`. -/
def std_less (a b : Int) : Bool := decide (a < b)

/-! ## functional.hh: `map` and `parallelmap`

The sequences `in, rest...` are modelled as the list of their rows
`(in[i], rest[i]...)`, of type `A`; `func` takes a row. `dflt` is the
value-initialised element of `std::valarray<R> out(in.size())`. -/

/-- `map(func, in, rest...)`. -/
def map {A R : Type} (func : A → R) (in_ : List A) : List R := in_.map func

section Writes

variable {α : Type}

theorem foldl_set_length (ws : List (Nat × α)) (init : List α) :
    (ws.foldl (fun acc w => acc.set w.1 w.2) init).length = init.length := by
  induction ws generalizing init with
  | nil => rfl
  | cons w ws ih => simp [ih]

theorem foldl_set_untouched (ws : List (Nat × α)) (init : List α) (k : Nat)
    (h : ∀ y, (k, y) ∉ ws) :
    (ws.foldl (fun acc w => acc.set w.1 w.2) init)[k]? = init[k]? := by
  induction ws generalizing init with
  | nil => rfl
  | cons w ws ih =>
    simp only [List.foldl_cons]
    rw [ih]
    · have hne : w.1 ≠ k := by
        intro e
        apply h w.2
        rw [← e]
        exact List.mem_cons_self _ _
      exact List.getElem?_set_ne hne
    · intro y hy
      exact h y (List.mem_cons_of_mem _ hy)

end Writes

/-! ## Loops over indices and loops over elements -/

theorem fillIndexes_eq_foldl (here sub : List Nat) (st : Nat) (pos : Nat → Nat → Nat) :
    ndarray.fillIndexes here sub st pos =
      (cellWrites here sub st pos).foldl (fun acc w => acc.set w.1 w.2)
        (List.replicate (here.length * sub.length) 0) := by
  unfold ndarray.fillIndexes cellWrites
  rw [List.flatMap_def, List.foldl_flatten, List.foldl_map]
  congr 1
  funext acc i
  rw [List.foldl_map]

theorem sizeTable_length (l : List Nat) : (sizeTable l).length = l.length := by
  induction l with
  | nil => rfl
  | cons s rest ih =>
    cases h : sizeTable rest with
    | nil =>
      rw [h] at ih
      simp [sizeTable, h, ← ih]
    | cons t ts =>
      rw [h] at ih
      simp [sizeTable, h, ← ih]

/-- Entry `d` of the `_size` table is, modulo `2 ^ 64`, the product of
`shape[d..rank)`. -/
theorem sizeTable_getElem? (l : List Nat) (d x : Nat) (h : (sizeTable l)[d]? = some x) :
    x % SIZE_MOD = (l.drop d).prod % SIZE_MOD := by
  induction l generalizing d x with
  | nil => simp [sizeTable] at h
  | cons s rest ih =>
    cases hr : sizeTable rest with
    | nil =>
      have hlen := sizeTable_length rest
      rw [hr] at hlen
      have hnil : rest = [] := List.length_eq_zero.1 hlen.symm
      subst hnil
      simp only [sizeTable] at h
      cases d with
      | zero =>
        simp at h
        subst h
        simp
      | succ d => simp at h
    | cons t ts =>
      simp only [sizeTable, hr] at h
      cases d with
      | zero =>
        simp at h
        subst h
        have ht := ih 0 t (by rw [hr]; simp)
        rw [List.drop_zero] at ht
        rw [List.drop_zero, List.prod_cons, Nat.mod_mod, Nat.mul_mod, ht, ← Nat.mul_mod]
      | succ d =>
        rw [List.getElem?_cons_succ] at h
        rw [List.drop_succ_cons]
        exact ih d x (by rw [hr]; exact h)

theorem sizeTable_getElem?_some (l : List Nat) (d : Nat) (h : d < l.length) :
    ∃ x, (sizeTable l)[d]? = some x ∧ x % SIZE_MOD = (l.drop d).prod % SIZE_MOD := by
  have hlt : d < (sizeTable l).length := by rw [sizeTable_length]; exact h
  exact ⟨(sizeTable l)[d], List.getElem?_eq_getElem hlt,
    sizeTable_getElem? l d _ (List.getElem?_eq_getElem hlt)⟩

/-! ## Resolution of specifiers -/

/-- The loop `size *= shape[i]` of `reshape` and of the fill constructor. -/
theorem foldl_mulmod (rest : List Nat) (s0 : Nat) :
    rest.foldl (fun acc x => acc * x % SIZE_MOD) s0 =
      if rest = [] then s0 else (s0 * rest.prod) % SIZE_MOD := by
  induction rest generalizing s0 with
  | nil => simp
  | cons x xs ih =>
    rw [List.foldl_cons, ih]
    simp only [List.cons_ne_nil, if_false, List.prod_cons]
    split
    · rename_i h
      subst h
      simp
    · rw [Nat.mod_mul_mod, Nat.mul_assoc]

/-- The `size` that `reshape` compares with the buffer length is the product
of the shape modulo `2 ^ 64`, for a shape of `size_t` entries. -/
theorem reshape_size (s0 : Nat) (rest : List Nat) (h0 : s0 < SIZE_MOD) :
    rest.foldl (fun acc x => acc * x % SIZE_MOD) s0 = (s0 :: rest).prod % SIZE_MOD := by
  rw [foldl_mulmod, List.prod_cons]
  split
  · rename_i h
    subst h
    simp [Nat.mod_eq_of_lt h0]
  · rfl

theorem reshape_ok {T : Type} (a : ndarray T) (shape : List Nat) (hne : shape ≠ [])
    (hprod : shape.prod = a.data.length) (hlt : a.data.length < SIZE_MOD) :
    a.reshape shape =
      (.ok (), { data := a.data, _shape := shape, _size := sizeTable shape }) := by
  cases shape with
  | nil => exact absurd rfl hne
  | cons s0 rest =>
    have hsz : rest.foldl (fun acc x => acc * x % SIZE_MOD) s0 = a.data.length := by
      rw [foldl_mulmod]
      split
      · rename_i h
        subst h
        simpa using hprod
      · rw [← List.prod_cons, hprod, Nat.mod_eq_of_lt hlt]
    simp only [ndarray.reshape, hsz, if_true]

theorem toSizeT_natCast (n : Nat) : toSizeT (n : Int) = n % SIZE_MOD := by
  unfold toSizeT
  have h : ((n : Int) % (SIZE_MOD : Int)) = ((n % SIZE_MOD : Nat) : Int) := by
    push_cast
    rfl
  rw [h]
  exact Int.toNat_ofNat _

/-- On non-negative arguments, one per dimension left, the recursion of
`index` returns the specification's flat position modulo `2 ^ 64`. -/
theorem index_rec_natCast {T : Type} (a : ndarray T) (hsize : a._size = sizeTable a._shape) :
    ∀ (idx : List Nat) (DEP : Nat), idx ≠ [] → DEP + idx.length = a._shape.length →
      a.index_rec DEP (idx.map Int.ofNat) =
        .ok (flatPos (a._shape.drop DEP) idx % SIZE_MOD) := by
  intro idx
  induction idx with
  | nil => intro DEP h; exact absurd rfl h
  | cons i rest ih =>
    intro DEP _ hlen
    have hi : (Int.ofNat i) ≥ 0 := Int.ofNat_nonneg i
    cases rest with
    | nil =>
      have htail : (List.drop DEP a._shape).tail = [] := by
        rw [List.tail_drop]
        apply List.drop_eq_nil_of_le
        simp only [List.length_singleton] at hlen
        omega
      simp only [List.map_cons, List.map_nil, ndarray.index_rec, hi, if_true, flatPos, htail,
        List.prod_nil, Nat.mul_one, Nat.add_zero]
      rw [show Int.ofNat i = (i : Int) from rfl, toSizeT_natCast]
    | cons r rest' =>
      have hd : DEP + 1 < a._shape.length := by
        simp only [List.length_cons] at hlen
        omega
      have ih' := ih (DEP + 1) (by simp) (by simp only [List.length_cons] at hlen ⊢; omega)
      obtain ⟨st, hst, hmod⟩ := sizeTable_getElem?_some a._shape (DEP + 1) hd
      rw [List.map_cons] at ih'
      simp only [List.map_cons, ndarray.index_rec, hi, if_true, ih', hsize, hst]
      rw [show Int.ofNat i = (i : Int) from rfl, toSizeT_natCast]
      congr 1
      conv_rhs => rw [flatPos, List.tail_drop]
      rw [Nat.add_mod, Nat.mul_mod, Nat.mod_mod, hmod, ← Nat.mul_mod, Nat.mod_mod, ← Nat.add_mod]

theorem flatPos_lt (dims idx : List Nat) (hin : List.Forall₂ (fun i n => i < n) idx dims) :
    flatPos dims idx < dims.prod := by
  induction hin with
  | nil => simp [flatPos]
  | @cons i n is ns h _ ih =>
    rw [flatPos, List.tail_cons, List.prod_cons]
    calc i * ns.prod + flatPos ns is < i * ns.prod + ns.prod := by omega
      _ = (i + 1) * ns.prod := by rw [Nat.succ_mul]
      _ ≤ n * ns.prod := Nat.mul_le_mul_right _ h

theorem reshape_success {T : Type} (a : ndarray T) (shape : List Nat)
    (hlt : a.data.length < SIZE_MOD) (h : (a.reshape shape).1 = .ok ()) :
    shape.prod % SIZE_MOD = a.data.length ∧
      (a.reshape shape).2 = { data := a.data, _shape := shape, _size := sizeTable shape } := by
  cases shape with
  | nil => simp [ndarray.reshape] at h
  | cons s0 rest =>
    by_cases hsz : rest.foldl (fun acc x => acc * x % SIZE_MOD) s0 = a.data.length
    · refine ⟨?_, by simp only [ndarray.reshape, hsz, if_true]⟩
      rw [foldl_mulmod] at hsz
      split at hsz
      · rename_i hr
        subst hr
        rw [List.prod_cons, List.prod_nil, Nat.mul_one, hsz, Nat.mod_eq_of_lt hlt]
      · rw [List.prod_cons]
        exact hsz
    · simp [ndarray.reshape, hsz] at h

theorem reshape_failure {T : Type} (a : ndarray T) (shape : List Nat)
    (h : (a.reshape shape).1 ≠ .ok ()) :
    (a.reshape shape).2 = a ∧ (shape ≠ [] → (a.reshape shape).1 = .error .length_error) := by
  cases shape with
  | nil => exact ⟨rfl, fun hne => absurd rfl hne⟩
  | cons s0 rest =>
    by_cases hsz : rest.foldl (fun acc x => acc * x % SIZE_MOD) s0 = a.data.length
    · simp [ndarray.reshape, hsz] at h
    · simp [ndarray.reshape, hsz]

theorem finish_ok {T : Type} (r : Except Err Unit × ndarray T) (a : ndarray T)
    (h : ndarray.finish r = .ok a) : r.1 = .ok () ∧ r.2 = a := by
  unfold ndarray.finish at h
  split at h
  · rename_i u hu
    injection h with h
    exact ⟨hu, h⟩
  · cases h

theorem toInt_of_small (x : Int) (h0 : -2 ^ 31 ≤ x) (h1 : x < 2 ^ 31) : toInt x = x := by
  unfold toInt
  rw [Int.emod_eq_of_lt (by omega) (by omega)]
  omega

theorem scatter_gather {T : Type} :
    ∀ (idxs : List Nat) (vals buf : List T), idxs.Nodup → (∀ p ∈ idxs, p < buf.length) →
      vals.length = idxs.length →
      ∃ buf', ndslice.scatter buf idxs vals = .ok buf' ∧ buf'.length = buf.length ∧
        (∀ k, k ∉ idxs → buf'[k]? = buf[k]?) ∧
        ∀ b : ndarray T, b.data = buf' → b.gather idxs = .ok vals := by
  intro idxs
  induction idxs with
  | nil =>
    intro vals buf _ _ hlen
    have hv : vals = [] := List.length_eq_zero.1 hlen
    subst hv
    exact ⟨buf, rfl, rfl, fun _ _ => rfl, fun _ _ => rfl⟩
  | cons p ps ih =>
    intro vals buf hnd hin hlen
    cases vals with
    | nil => simp at hlen
    | cons x xs =>
      have hp : p < buf.length := hin p (List.mem_cons_self _ _)
      have hnd' := List.nodup_cons.1 hnd
      obtain ⟨buf', hsc, hl, hun, hga⟩ := ih xs (buf.set p x) hnd'.2
        (fun q hq => by rw [List.length_set]; exact hin q (List.mem_cons_of_mem _ hq))
        (by simpa using hlen)
      refine ⟨buf', ?_, ?_, ?_, ?_⟩
      · simp only [ndslice.scatter, hp, if_true, hsc]
      · rw [hl, List.length_set]
      · intro k hk
        have hkp : p ≠ k := fun e => hk (by rw [e]; exact List.mem_cons_self _ _)
        rw [hun k (fun h => hk (List.mem_cons_of_mem _ h)), List.getElem?_set_ne hkp]
      · intro b hb
        have hx : b.data[p]? = some x := by
          rw [hb, hun p hnd'.1]
          simp [List.getElem?_set, hp]
        simp only [ndarray.gather, hx, hga b hb]

theorem slice_shape_ne_nil {T : Type} (a : ndarray T) (specs : List Spec) (v : ndslice)
    (h : a.slice specs = .ok v) : v._shape ≠ [] := by
  unfold ndarray.slice at h
  split at h
  · cases h
  · injection h with h
    subst h
    simp only
    split
    · exact List.cons_ne_nil _ _
    · rename_i hne
      exact fun e => hne (by rw [e]; rfl)

/-! ## Views of result shape `[1]` -/

theorem fillIndexes_length (here sub : List Nat) (st : Nat) (pos : Nat → Nat → Nat) :
    (ndarray.fillIndexes here sub st pos).length = here.length * sub.length := by
  rw [fillIndexes_eq_foldl, foldl_set_length, List.length_replicate]

theorem range_excl_zero_one (st : Nat) (sub : List Nat) (h : range_excl 0 st 1 = .ok sub) :
    sub = (List.range (st % SIZE_MOD)).map (fun i => i % SIZE_MOD) := by
  unfold range_excl at h
  simp only [one_ne_zero, if_false, Nat.cast_zero, sub_zero, toSizeT_natCast, Nat.div_one,
    Nat.zero_add, Nat.one_mul] at h
  split at h
  · injection h with h
    exact h.symm
  · cases h

theorem range_excl_length_le (st : Nat) (sub : List Nat) (h : range_excl 0 st 1 = .ok sub) :
    sub.length ≤ st := by
  rw [range_excl_zero_one st sub h, List.length_map, List.length_range]
  exact Nat.mod_le _ _

/-- What a call of the recursive `slice` appends to the shape vector bounds the
number of positions it returns, when it appends at most one entry. -/
theorem slice_rec_cache {T : Type} (a : ndarray T) :
    ∀ (specs : List Spec) (DEP : Nat) (cache idx cache' : List Nat),
      a.slice_rec DEP cache specs = .ok (idx, cache') →
      ∃ extra, cache' = cache ++ extra ∧ (extra = [] → idx.length ≤ 1) ∧
        (∀ n, extra = [n] → idx.length ≤ n) := by
  intro specs
  induction specs with
  | nil =>
    intro DEP cache idx cache' h
    simp [ndarray.slice_rec] at h
  | cons first rest ih =>
    intro DEP cache idx cache' h
    cases rest with
    | nil =>
      simp only [ndarray.slice_rec] at h
      split at h
      · cases h
      · rename_i here hlev
        split at h
        · split at h
          · cases h
          · rename_i st hst
            split at h
            · cases h
            · rename_i sub hsub
              injection h with h
              rw [Prod.mk.injEq] at h
              obtain ⟨h1, h2⟩ := h
              have hlt : DEP + 1 < a._size.length := by
                by_contra hc
                rw [List.getElem?_eq_none (by omega)] at hst
                cases hst
              have hdrop : a._size.drop (DEP + 1) = st :: a._size.drop (DEP + 1 + 1) := by
                rw [List.drop_eq_getElem_cons hlt]
                congr 1
                rw [List.getElem?_eq_getElem hlt] at hst
                injection hst
              have hsl := range_excl_length_le st sub hsub
              have hil : idx.length = here.length * sub.length := by
                rw [← h1, fillIndexes_length]
              by_cases hh : here.length > 1
              · refine ⟨[here.length] ++ a._size.drop (DEP + 1), ?_, ?_, ?_⟩
                · rw [← h2, if_pos hh, List.append_assoc]
                · intro e
                  simp at e
                · intro n e
                  rw [hdrop] at e
                  simp at e
              · refine ⟨a._size.drop (DEP + 1), ?_, ?_, ?_⟩
                · rw [← h2, if_neg hh]
                · intro e
                  rw [hdrop] at e
                  cases e
                · intro n e
                  rw [hdrop] at e
                  injection e with e1 e2
                  subst e1
                  rw [hil]
                  have : here.length ≤ 1 := by omega
                  calc here.length * sub.length ≤ 1 * sub.length :=
                        Nat.mul_le_mul_right _ this
                    _ = sub.length := Nat.one_mul _
                    _ ≤ st := hsl
        · injection h with h
          rw [Prod.mk.injEq] at h
          obtain ⟨h1, h2⟩ := h
          subst h1
          by_cases hh : here.length > 1
          · refine ⟨[here.length], ?_, ?_, ?_⟩
            · rw [← h2, if_pos hh]
            · intro e
              cases e
            · intro n e
              injection e with e1 _
              omega
          · refine ⟨[], ?_, ?_, ?_⟩
            · rw [← h2, if_neg hh, List.append_nil]
            · intro _
              omega
            · intro n e
              cases e
    | cons r rest' =>
      simp only [ndarray.slice_rec] at h
      split at h
      · cases h
      · rename_i here hlev
        split at h
        · cases h
        · rename_i sub cache1 hrec
          obtain ⟨extra', he1, he2, he3⟩ := ih _ _ _ _ hrec
          have hidx : idx.length ≤ here.length * sub.length ∧ cache' = cache1 := by
            split at h
            · injection h with h
              rw [Prod.mk.injEq] at h
              rw [← h.1, fillIndexes_length]
              exact ⟨Nat.le_refl _, h.2.symm⟩
            · split at h
              · injection h with h
                rw [Prod.mk.injEq] at h
                rw [← h.1]
                exact ⟨Nat.zero_le _, h.2.symm⟩
              · cases h
          obtain ⟨hil, hc⟩ := hidx
          subst hc
          by_cases hh : here.length > 1
          · rw [if_pos hh] at he1
            refine ⟨[here.length] ++ extra', ?_, ?_, ?_⟩
            · rw [he1, List.append_assoc]
            · intro e
              simp at e
            · intro n e
              have hx : extra' = [] := by
                cases extra' with
                | nil => rfl
                | cons x xs => simp at e
              rw [hx] at e
              injection e with e1 _
              have := he2 hx
              calc idx.length ≤ here.length * sub.length := hil
                _ ≤ here.length * 1 := Nat.mul_le_mul_left _ this
                _ = n := by omega
          · rw [if_neg hh] at he1
            have hle : here.length ≤ 1 := by omega
            refine ⟨extra', he1, ?_, ?_⟩
            · intro e
              have := he2 e
              calc idx.length ≤ here.length * sub.length := hil
                _ ≤ 1 * 1 := Nat.mul_le_mul hle this
            · intro n e
              have := he3 n e
              calc idx.length ≤ here.length * sub.length := hil
                _ ≤ 1 * n := Nat.mul_le_mul hle this
                _ = n := Nat.one_mul _

/-- A view of result shape `[1]` produced by `slice` has at most one position. -/
theorem slice_scalar_positions {T : Type} (a : ndarray T) (specs : List Spec) (v : ndslice)
    (hv : a.slice specs = .ok v) (hs : v._shape = [1]) : v._indexes.length ≤ 1 := by
  unfold ndarray.slice at hv
  split at hv
  · cases hv
  · rename_i idx cache hrec
    injection hv with hv
    subst hv
    obtain ⟨extra, he1, he2, he3⟩ := slice_rec_cache a specs 0 [] idx cache hrec
    rw [List.nil_append] at he1
    subst he1
    simp only at hs ⊢
    by_cases h0 : cache.length = 0
    · exact he2 (List.length_eq_zero.1 h0)
    · rw [if_neg h0] at hs
      exact he3 1 hs

/-! ## Ranges -/

/-- `range_incl` on `from ≤ to` (below `2 ^ 53`) and a positive step: the
values `from + step*k` for `k ≤ (to-from)/step`, none above `to`. -/
theorem range_incl_spec (f t st : Nat) (hst : 1 ≤ st) (hft : f ≤ t) (ht : t < EXACT_DOUBLE) :
    range_incl f t st = .ok ((List.range ((t - f) / st + 1)).map fun k => f + st * k) ∧
      ∀ k, k < (t - f) / st + 1 → f + st * k ≤ t := by
  have hE : EXACT_DOUBLE = 2 ^ 53 := rfl
  have hM : SIZE_MOD = 2 ^ 64 := rfl
  have hq : toSizeT ((t : Int) - (f : Int)) = t - f := by
    rw [← Nat.cast_sub hft, toSizeT_natCast]
    exact Nat.mod_eq_of_lt (by omega)
  have hle : ∀ k, k < (t - f) / st + 1 → f + st * k ≤ t := by
    intro k hk
    have h1 : k ≤ (t - f) / st := by omega
    have h2 : st * k ≤ st * ((t - f) / st) := Nat.mul_le_mul_left _ h1
    have h3 : st * ((t - f) / st) ≤ t - f := Nat.mul_div_le _ _
    omega
  refine ⟨?_, hle⟩
  have hdiv : (t - f) / st < EXACT_DOUBLE :=
    lt_of_le_of_lt (Nat.div_le_self _ _) (by omega)
  unfold range_incl
  rw [if_neg (by omega)]
  simp only [hq, hdiv, if_true]
  congr 1
  apply List.map_congr_left
  intro k hk
  have := hle k (List.mem_range.1 hk)
  exact Nat.mod_eq_of_lt (by omega)

/-- Resolution of `RANGE(b,e,s)` in a dimension of size `n` when the wrapped
bounds satisfy `0 ≤ begin ≤ end`, the end is an `int`, and `1 ≤ s`. -/
theorem level_rangeStep_spec {T : Type} (a : ndarray T) (d n : Nat) (b e s : Int)
    (hd : a._shape[d]? = some n) (hs : 1 ≤ s) (hsint : s < 2 ^ 31)
    (hb : 0 ≤ wrapIndex b n) (hbe : wrapIndex b n ≤ wrapIndex e n)
    (heint : wrapIndex e n < 2 ^ 31) :
    a.level d (.rangeStep b e s) =
      .ok ((List.range (((wrapIndex e n).toNat - (wrapIndex b n).toNat) / s.toNat + 1)).map
        fun k => (wrapIndex b n).toNat + s.toNat * k) := by
  have hM : SIZE_MOD = 2 ^ 64 := rfl
  have hE : EXACT_DOUBLE = 2 ^ 53 := rfl
  have hbegin : (if b < 0 then toInt (b + n) else b) = wrapIndex b n := by
    unfold wrapIndex
    split
    · rename_i hneg
      have h1 : wrapIndex b n = b + n := by unfold wrapIndex; rw [if_pos hneg]
      rw [h1] at hb hbe
      exact toInt_of_small _ (by omega) (by omega)
    · rfl
  have hend : (if e < 0 then toInt (e + n) else e) = wrapIndex e n := by
    unfold wrapIndex
    split
    · rename_i hneg
      have h1 : wrapIndex e n = e + n := by unfold wrapIndex; rw [if_pos hneg]
      rw [h1] at heint hbe
      exact toInt_of_small _ (by omega) (by omega)
    · rfl
  obtain ⟨rb, hrb⟩ := Int.eq_ofNat_of_zero_le hb
  obtain ⟨re, hre⟩ := Int.eq_ofNat_of_zero_le (le_trans hb hbe)
  obtain ⟨st, hst⟩ := Int.eq_ofNat_of_zero_le (le_trans (by decide : (0 : Int) ≤ 1) hs)
  simp only [ndarray.level, hd, hbegin, hend]
  have h1 : rb ≤ re := by omega
  have h2 : re < 2 ^ 31 := by omega
  have h3 : 1 ≤ st := by omega
  have h4 : st < 2 ^ 31 := by omega
  rw [hrb, hre, hst]
  simp only [toSizeT_natCast, Int.toNat_ofNat, Nat.mod_eq_of_lt (show rb < SIZE_MOD by omega),
    Nat.mod_eq_of_lt (show re < SIZE_MOD by omega),
    Nat.mod_eq_of_lt (show st < SIZE_MOD by omega)]
  exact (range_incl_spec rb re st h3 h1 (by omega)).1

/-- `RANGE(b,e)` is `RANGE(b,e,1)`. -/
theorem level_range_eq {T : Type} (a : ndarray T) (d : Nat) (b e : Int) :
    a.level d (.range b e) = a.level d (.rangeStep b e 1) := by
  have h1 : toSizeT 1 = 1 := by decide
  simp only [ndarray.level, h1]

/-! ## Negative indices in specifiers -/

theorem toSizeT_of_nonneg (x : Int) (h0 : 0 ≤ x) (h1 : x < SIZE_MOD) :
    toSizeT x = x.toNat := by
  obtain ⟨k, hk⟩ := Int.eq_ofNat_of_zero_le h0
  rw [hk, toSizeT_natCast, Int.toNat_ofNat]
  exact Nat.mod_eq_of_lt (by omega)

/-- The recursive `slice` depends on a specifier only through its resolution
by `level`. -/
theorem slice_rec_congr {T : Type} (a : ndarray T) (s1 s2 : Spec) (post : List Spec) :
    ∀ (pre : List Spec) (DEP : Nat) (cache : List Nat),
      a.level (DEP + pre.length) s1 = a.level (DEP + pre.length) s2 →
      a.slice_rec DEP cache (pre ++ s1 :: post) = a.slice_rec DEP cache (pre ++ s2 :: post) := by
  intro pre
  induction pre with
  | nil =>
    intro DEP cache h
    rw [List.length_nil, Nat.add_zero] at h
    cases post with
    | nil => simp only [List.nil_append, ndarray.slice_rec, h]
    | cons r rest => simp only [List.nil_append, ndarray.slice_rec, h]
  | cons p pre' ih =>
    intro DEP cache h
    have h' : a.level (DEP + 1 + pre'.length) s1 = a.level (DEP + 1 + pre'.length) s2 := by
      rw [List.length_cons] at h
      rw [Nat.add_assoc, Nat.add_comm 1]
      exact h
    cases pre' with
    | nil =>
      have ih' := fun c => ih (DEP + 1) c h'
      simp only [List.nil_append] at ih'
      simp only [List.cons_append, List.nil_append, ndarray.slice_rec, ih']
    | cons q pre'' =>
      have ih' := fun c => ih (DEP + 1) c h'
      simp only [List.cons_append] at ih'
      simp only [List.cons_append, ndarray.slice_rec]
      simp only [List.append_eq, ih']

/-! ## Sequence assignment through a view -/

theorem foldl_set_last {α : Type} (ws : List (Nat × α)) :
    ∀ (init : List α) (i : Nat) (hi : i < ws.length),
      (∀ (j : Nat) (hj : j < ws.length), i < j → ws[j].1 ≠ ws[i].1) →
      ws[i].1 < init.length →
      (ws.foldl (fun acc w => acc.set w.1 w.2) init)[ws[i].1]? = some ws[i].2 := by
  induction ws with
  | nil => intro init i hi; simp at hi
  | cons w ws ih =>
    intro init i hi hlast hk
    cases i with
    | zero =>
      simp only [List.getElem_cons_zero, List.foldl_cons] at hk ⊢
      rw [foldl_set_untouched]
      · simp [List.getElem?_set, hk]
      · intro y hy
        obtain ⟨j, hj, e⟩ := List.getElem_of_mem hy
        have := hlast (j + 1) (by simp only [List.length_cons]; omega) (by omega)
        simp only [List.getElem_cons_succ, List.getElem_cons_zero, e] at this
        exact this rfl
    | succ i =>
      simp only [List.getElem_cons_succ, List.foldl_cons] at hk ⊢
      apply ih
      · intro j hj hij
        have := hlast (j + 1) (by simp only [List.length_cons]; omega) (by omega)
        simpa only [List.getElem_cons_succ] using this
      · rw [List.length_set]
        exact hk

/-- With at least as many values as positions, all inside the buffer, the
copy stores the values one after the other. -/
theorem scatter_eq_foldl {T : Type} :
    ∀ (idxs : List Nat) (vals buf : List T), idxs.length ≤ vals.length →
      (∀ p ∈ idxs, p < buf.length) →
      ndslice.scatter buf idxs vals =
        .ok ((idxs.zip vals).foldl (fun acc w => acc.set w.1 w.2) buf) := by
  intro idxs
  induction idxs with
  | nil => intro vals buf _ _; simp [ndslice.scatter]
  | cons p ps ih =>
    intro vals buf hlen hin
    cases vals with
    | nil => simp at hlen
    | cons x xs =>
      have hp : p < buf.length := hin p (List.mem_cons_self _ _)
      simp only [ndslice.scatter, hp, if_true, List.zip_cons_cons, List.foldl_cons]
      apply ih
      · simpa using hlen
      · intro q hq
        rw [List.length_set]
        exact hin q (List.mem_cons_of_mem _ hq)

/-! ## `unique` -/

theorem std_sort_less_sorted (l : List Int) : (std_sort std_less l).Pairwise (fun a b => a ≤ b) := by
  haveI : IsTotal Int (fun a b => std_less b a = false) :=
    ⟨fun a b => by simp only [std_less, decide_eq_false_iff_not]; omega⟩
  haveI : IsTrans Int (fun a b => std_less b a = false) :=
    ⟨fun a b c => by simp only [std_less, decide_eq_false_iff_not]; omega⟩
  have h := List.sorted_insertionSort (fun a b => std_less b a = false) l
  unfold std_sort
  refine List.Pairwise.imp ?_ h
  intro a b hab
  simp only [std_less, decide_eq_false_iff_not] at hab
  omega

theorem std_sort_mem (l : List Int) (x : Int) : x ∈ std_sort std_less l ↔ x ∈ l :=
  (List.perm_insertionSort (fun a b => std_less b a = false) l).mem_iff

/-- On an ascending list whose elements are at least `last`, `std::unique`
keeps a strictly ascending list of the values other than `last`. -/
theorem std_unique_from_spec (xs : List Int) :
    ∀ (last : Int), xs.Pairwise (fun a b => a ≤ b) → (∀ x ∈ xs, last ≤ x) →
      (std_unique_from _equals last xs).Pairwise (fun a b => a < b) ∧
      (∀ x ∈ std_unique_from _equals last xs, last < x) ∧
      (∀ x, x ∈ std_unique_from _equals last xs ↔ x ∈ xs ∧ x ≠ last) := by
  induction xs with
  | nil =>
    intro last _ _
    simp [std_unique_from]
  | cons y rest ih =>
    intro last hs hl
    have hs' := List.pairwise_cons.1 hs
    have hly : last ≤ y := hl y (List.mem_cons_self _ _)
    by_cases he : last = y
    · subst he
      obtain ⟨h1, h2, h3⟩ := ih last hs'.2 (fun x hx => hl x (List.mem_cons_of_mem _ hx))
      have hdef : std_unique_from _equals last (last :: rest) =
          std_unique_from _equals last rest := by
        simp [std_unique_from, _equals]
      rw [hdef]
      refine ⟨h1, h2, ?_⟩
      intro x
      rw [h3 x, List.mem_cons]
      constructor
      · rintro ⟨hx, hne⟩
        exact ⟨Or.inr hx, hne⟩
      · rintro ⟨hx | hx, hne⟩
        · exact absurd hx hne
        · exact ⟨hx, hne⟩
    · obtain ⟨h1, h2, h3⟩ := ih y hs'.2 hs'.1
      have hdef : std_unique_from _equals last (y :: rest) =
          y :: std_unique_from _equals y rest := by
        simp [std_unique_from, _equals, he]
      rw [hdef]
      have hlt : last < y := by omega
      refine ⟨List.pairwise_cons.2 ⟨h2, h1⟩, ?_, ?_⟩
      · intro x hx
        rcases List.mem_cons.1 hx with hx | hx
        · rw [hx]; exact hlt
        · have := h2 x hx
          omega
      · intro x
        rw [List.mem_cons, h3 x, List.mem_cons]
        constructor
        · rintro (hx | ⟨hx, hne⟩)
          · exact ⟨Or.inl hx, by omega⟩
          · have := hs'.1 x hx
            exact ⟨Or.inr hx, by omega⟩
        · rintro ⟨hx | hx, _⟩
          · exact Or.inl hx
          · by_cases hxy : x = y
            · exact Or.inl hxy
            · exact Or.inr ⟨hx, hxy⟩

/-! ## `parallelmap` -/

/-- C2: on the 4 by 4 array of the test driver, `slice(RANGE(1,2))` (one
specifier, the second dimension omitted) returns the flat positions
4,8,5,9,6,10,7,11, the omitted dimension varying slowest, whereas
`slice(RANGE(1,2), ALL)` returns 4,5,6,7,8,9,10,11: the two sequences differ in
order. -/
theorem slice_omitted_dimension_order :
    ndarray.ofFlat (List.range 16) [4, 4] = .ok arr44 ∧
    arr44.slice [RANGE 1 2] = .ok ⟨[4, 8, 5, 9, 6, 10, 7, 11], [2, 4]⟩ ∧
    arr44.slice [RANGE 1 2, ALL] = .ok ⟨[4, 5, 6, 7, 8, 9, 10, 11], [2, 4]⟩ := by
  decide

/-- C4: on the 2 by 2 by 2 array built from the flat data 0..7, `slice(0)`
(one specifier, two dimensions omitted) returns the result shape `[4, 2]`, the
entries `_size[1]` and `_size[2]`, and not `[2, 2]`, the sizes of the omitted
dimensions; the view has 4 positions, and materialising it throws
`length_error`. -/
theorem slice_omitted_dimensions_shape :
    ndarray.ofFlat (List.range 8) [2, 2, 2] = .ok arr222 ∧
    arr222.slice [Spec.index 0] = .ok ⟨[0, 1, 2, 3], [4, 2]⟩ ∧
    ndarray.ofSlice arr222 ⟨[0, 1, 2, 3], [4, 2]⟩ = .error .length_error := by
  decide

/-- C5: for an array built from `flat` and a shape `s` of rank r ≥ 1 with
product `len(flat)`, and r indices `0 ≤ i_d < s[d]`, the constructor succeeds
and `index(i_0,...,i_{r-1})` returns `flat[Σ_d i_d * stride[d]]`,
`stride[d]` being the product of `s[d+1..r)`. -/
theorem index_is_row_major {T : Type} (flat : List T) (s idx : List Nat)
    (hrank : s ≠ []) (hlt : flat.length < SIZE_MOD) (hprod : s.prod = flat.length)
    (hin : List.Forall₂ (fun i n => i < n) idx s) :
    ∃ a x, ndarray.ofFlat flat s = .ok a ∧ flat[flatPos s idx]? = some x ∧
      a.index (idx.map Int.ofNat) = .ok x := by
  have hlen : idx.length = s.length := hin.length_eq
  have hidx : idx ≠ [] := by
    intro h
    rw [h] at hlen
    exact hrank (List.length_eq_zero.1 hlen.symm)
  have hs0 : ¬ s.length = 0 := fun h => hrank (List.length_eq_zero.1 h)
  have hpos : flatPos s idx < flat.length := by
    rw [← hprod]
    exact flatPos_lt s idx hin
  let a0 : ndarray T := { data := flat, _shape := [], _size := [] }
  have hre := reshape_ok a0 s hrank hprod hlt
  refine ⟨{ data := flat, _shape := s, _size := sizeTable s }, flat[flatPos s idx], ?_,
    List.getElem?_eq_getElem hpos, ?_⟩
  · simp only [ndarray.ofFlat, if_neg hs0, ndarray.finish]
    rw [hre]
  · have hrec := index_rec_natCast
      ({ data := flat, _shape := s, _size := sizeTable s } : ndarray T) rfl idx 0 hidx
      (by simp only [Nat.zero_add]; exact hlen)
    simp only [List.drop_zero] at hrec
    rw [Nat.mod_eq_of_lt (by omega)] at hrec
    simp only [ndarray.index, List.length_map, hlen, sizeTable_length, if_true, hrec,
      List.getElem?_eq_getElem hpos]

theorem index_is_row_major_witness :
    (([4, 4] : List Nat) ≠ [] ∧ (List.range 16).length < SIZE_MOD ∧
      ([4, 4] : List Nat).prod = (List.range 16).length ∧
      List.Forall₂ (fun i n => i < n) [1, 2] [4, 4]) ∧
    ∃ a x, ndarray.ofFlat (List.range 16) [4, 4] = .ok a ∧
      (List.range 16)[flatPos [4, 4] [1, 2]]? = some x ∧
      a.index ([1, 2].map Int.ofNat) = .ok x :=
  ⟨⟨by decide, by decide, by decide,
      List.Forall₂.cons (by decide) (List.Forall₂.cons (by decide) List.Forall₂.nil)⟩,
    index_is_row_major (List.range 16) [4, 4] [1, 2] (by decide) (by decide) (by decide)
      (List.Forall₂.cons (by decide) (List.Forall₂.cons (by decide) List.Forall₂.nil))⟩

/-- C6: on the 10 by 2 by 2 array built from the flat data 0..39,
`index(0,-1,0)` returns element 6 while `index(0,1,0)` returns element 2: a
negative index in a dimension other than the last is raised by `_size[d]`
(here 4), not by `shape[d]` (here 2). On the 4 by 4 array `index(-1,0)` reads
position 60, outside the buffer, while `index(3,0)` returns element 12. -/
theorem index_negative_wrap_non_last :
    ndarray.ofFlat (List.range 40) [10, 2, 2] = .ok arr1022 ∧
    arr1022.index [0, -1, 0] = .ok 6 ∧ arr1022.index [0, 1, 0] = .ok 2 ∧
    arr44.index_rec 0 [-1, 0] = .ok 60 ∧ arr44.index [-1, 0] = .error .undefined ∧
    arr44.index [3, 0] = .ok 12 := by
  decide

/-- C8 (amended): for a view produced by `slice` whose flat positions are
pairwise distinct and inside the owner's buffer, and whose result shape has
product equal to the number of positions, assigning a sequence `vals` of that
many values through the view succeeds, and materialising the same view
afterwards succeeds and returns an array with flat data `vals` and the shape
of the view. -/
theorem view_write_read_round_trip {T : Type} (a : ndarray T) (specs : List Spec)
    (v : ndslice) (vals : List T) (hlt : a.data.length < SIZE_MOD)
    (hv : a.slice specs = .ok v) (hnodup : v._indexes.Nodup)
    (hin : ∀ p ∈ v._indexes, p < a.data.length)
    (hshape : v._shape.prod = v._indexes.length)
    (hlen : vals.length = v._indexes.length) :
    ∃ a' b, v.assign a vals = .ok a' ∧ ndarray.ofSlice a' v = .ok b ∧
      b.data = vals ∧ b._shape = v._shape := by
  obtain ⟨buf', hsc, _, _, hga⟩ := scatter_gather v._indexes vals a.data hnodup hin hlen
  have hsub : v._indexes ⊆ List.range a.data.length :=
    fun p hp => List.mem_range.2 (hin p hp)
  have hle : v._indexes.length ≤ a.data.length := by
    have := (List.subperm_of_subset hnodup hsub).length_le
    simpa using this
  let a0 : ndarray T := { data := vals, _shape := [], _size := [] }
  have hre := reshape_ok a0 v._shape (slice_shape_ne_nil a specs v hv)
    (by rw [hshape]; exact hlen.symm) (by show vals.length < SIZE_MOD; omega)
  refine ⟨{ a with data := buf' },
    { data := vals, _shape := v._shape, _size := sizeTable v._shape }, ?_, ?_, rfl, rfl⟩
  · simp only [ndslice.assign, hsc]
  · simp only [ndarray.ofSlice, hga { a with data := buf' } rfl, ndarray.finish]
    rw [hre]

theorem view_write_read_round_trip_witness :
    (arr44.data.length < SIZE_MOD ∧
      arr44.slice [LIST [0, 3], RANGE 1 3] = .ok ⟨[1, 2, 3, 13, 14, 15], [2, 3]⟩ ∧
      [1, 2, 3, 13, 14, 15].Nodup ∧ (∀ p ∈ [1, 2, 3, 13, 14, 15], p < arr44.data.length) ∧
      ([2, 3] : List Nat).prod = [1, 2, 3, 13, 14, 15].length ∧
      [70, 71, 72, 73, 74, 75].length = [1, 2, 3, 13, 14, 15].length) ∧
    ∃ a' b, (⟨[1, 2, 3, 13, 14, 15], [2, 3]⟩ : ndslice).assign arr44 [70, 71, 72, 73, 74, 75]
        = .ok a' ∧
      ndarray.ofSlice a' ⟨[1, 2, 3, 13, 14, 15], [2, 3]⟩ = .ok b ∧
      b.data = [70, 71, 72, 73, 74, 75] ∧
      b._shape = (⟨[1, 2, 3, 13, 14, 15], [2, 3]⟩ : ndslice)._shape :=
  ⟨⟨by decide, by decide, by decide, by decide, by decide, by decide⟩,
    view_write_read_round_trip arr44 [LIST [0, 3], RANGE 1 3] ⟨[1, 2, 3, 13, 14, 15], [2, 3]⟩
      [70, 71, 72, 73, 74, 75] (by decide) (by decide) (by decide) (by decide) (by decide)
      (by decide)⟩

/-- C8 (as stated, refuted): on the array built from the flat data 10, 20,
the view `slice(LIST(0,0))` has the positions 0, 0, both in range. Assigning
the values 1, 2 through it and materialising it again returns the flat data
2, 2. No state of the buffer could return 1, 2: both entries are read from
position 0. -/
theorem view_round_trip_duplicate_positions :
    ndarray.ofFlat [10, 20] [] = .ok arr2 ∧
    arr2.slice [LIST [0, 0]] = .ok ⟨[0, 0], [2]⟩ ∧
    (⟨[0, 0], [2]⟩ : ndslice).assign arr2 [1, 2] = .ok { arr2 with data := [2, 20] } ∧
    ndarray.ofSlice { arr2 with data := [2, 20] } ⟨[0, 0], [2]⟩ =
      .ok { data := [2, 2], _shape := [2], _size := [2] } ∧
    ∀ b : ndarray Nat, b.gather [0, 0] ≠ .ok [1, 2] := by
  refine ⟨by decide, by decide, by decide, by decide, ?_⟩
  intro b h
  simp only [ndarray.gather] at h
  cases h0 : b.data[0]? with
  | none => simp [h0] at h
  | some x =>
    simp [h0] at h
    omega

/-- C9 (amended): for a new shape of rank ≥ 1 with `size_t` entries, `reshape`
succeeds exactly when the product of the new shape, taken modulo `2 ^ 64`,
equals the buffer length (so exactly when the product equals the buffer length
if the product is below `2 ^ 64`). On success the buffer is unchanged, the
shape is the new shape and the `_size` table is recomputed from it (entry `d`
is the product of `newShape[d..rank)` modulo `2 ^ 64`); otherwise the call
throws `length_error` and buffer, shape and `_size` table are as before. -/
theorem reshape_contract {T : Type} (a : ndarray T) (newShape : List Nat)
    (hrank : newShape ≠ []) (hentries : ∀ n ∈ newShape, n < SIZE_MOD) :
    ((a.reshape newShape).1 = .ok () ↔ newShape.prod % SIZE_MOD = a.data.length) ∧
    (newShape.prod < SIZE_MOD →
      ((a.reshape newShape).1 = .ok () ↔ newShape.prod = a.data.length)) ∧
    ((a.reshape newShape).1 = .ok () →
      (a.reshape newShape).2 =
        { data := a.data, _shape := newShape, _size := sizeTable newShape } ∧
      (sizeTable newShape).length = newShape.length ∧
      ∀ d x, (sizeTable newShape)[d]? = some x →
        x % SIZE_MOD = (newShape.drop d).prod % SIZE_MOD) ∧
    ((a.reshape newShape).1 ≠ .ok () →
      (a.reshape newShape).1 = .error .length_error ∧ (a.reshape newShape).2 = a) := by
  have hiff : (a.reshape newShape).1 = .ok () ↔ newShape.prod % SIZE_MOD = a.data.length := by
    cases newShape with
    | nil => exact absurd rfl hrank
    | cons s0 rest =>
      have hs := reshape_size s0 rest (hentries s0 (List.mem_cons_self _ _))
      simp only [ndarray.reshape, hs]
      split <;> simp_all
  have hstate : (a.reshape newShape).1 = .ok () → (a.reshape newShape).2 =
      { data := a.data, _shape := newShape, _size := sizeTable newShape } := by
    intro h
    cases newShape with
    | nil => exact absurd rfl hrank
    | cons s0 rest =>
      simp only [ndarray.reshape] at h ⊢
      split
      · rfl
      · rename_i hne
        simp [hne] at h
  refine ⟨hiff, ?_, ?_, ?_⟩
  · intro hlt
    rw [hiff, Nat.mod_eq_of_lt hlt]
  · intro h
    exact ⟨hstate h, sizeTable_length _, sizeTable_getElem? newShape⟩
  · intro h
    have := reshape_failure a newShape h
    exact ⟨this.2 hrank, this.1⟩

theorem reshape_contract_witness :
    (([2, 2] : List Nat) ≠ [] ∧ ∀ n ∈ ([2, 2] : List Nat), n < SIZE_MOD) ∧
    (arr4.reshape [2, 2]).1 = .ok () ∧
    (arr4.reshape [2, 2]).2 = { data := arr4.data, _shape := [2, 2], _size := [4, 2] } ∧
    (arr4.reshape [3, 2]).1 = .error .length_error ∧ (arr4.reshape [3, 2]).2 = arr4 :=
  ⟨⟨by decide, by decide⟩,
    (reshape_contract arr4 [2, 2] (by decide) (by decide)).1.2 (by decide),
    ((reshape_contract arr4 [2, 2] (by decide) (by decide)).2.2.1 (by decide)).1,
    (reshape_contract arr4 [3, 2] (by decide) (by decide)).2.2.2 (by decide)⟩

/-- C9 (as stated, refuted): on the array built from the flat data 0..3,
`reshape` with the shape `[2^62 + 1, 4]` succeeds, although the product of
that shape is `2^64 + 4` and the buffer length is 4: the `size_t` product
wraps to 4. -/
theorem reshape_accepts_wrapped_product :
    ndarray.ofFlat (List.range 4) [] = .ok arr4 ∧
    (arr4.reshape [2 ^ 62 + 1, 4]).1 = .ok () ∧
    (arr4.reshape [2 ^ 62 + 1, 4]).2 =
      { data := [0, 1, 2, 3], _shape := [2 ^ 62 + 1, 4], _size := [4, 4] } ∧
    ([2 ^ 62 + 1, 4] : List Nat).prod ≠ arr4.data.length := by
  decide

/-- C10 (amended): after every successful construction (fill value and shape,
flat data with or without a shape, materialised view) and after every call of
`reshape`, successful or not, on an array for which it held before, the
product of the shape taken modulo `2 ^ 64` equals the buffer length; the
product itself equals the buffer length whenever it is below `2 ^ 64`. Buffer
lengths are `size_t` values. -/
theorem shape_product_invariant {T : Type} :
    (∀ (init : T) (shape : List Nat) (capacity : Nat) (a : ndarray T),
      ndarray.fill init shape capacity = .ok a →
      a._shape.prod % SIZE_MOD = a.data.length) ∧
    (∀ (flat : List T) (shape : List Nat) (a : ndarray T), flat.length < SIZE_MOD →
      ndarray.ofFlat flat shape = .ok a → a._shape.prod % SIZE_MOD = a.data.length) ∧
    (∀ (owner : ndarray T) (v : ndslice) (a : ndarray T), v._indexes.length < SIZE_MOD →
      ndarray.ofSlice owner v = .ok a → a._shape.prod % SIZE_MOD = a.data.length) ∧
    (∀ (a : ndarray T) (shape : List Nat), a.data.length < SIZE_MOD →
      a._shape.prod % SIZE_MOD = a.data.length →
      (a.reshape shape).2._shape.prod % SIZE_MOD = (a.reshape shape).2.data.length) ∧
    (∀ a : ndarray T, a._shape.prod % SIZE_MOD = a.data.length → a._shape.prod < SIZE_MOD →
      a._shape.prod = a.data.length) := by
  have hM : 0 < SIZE_MOD := by unfold SIZE_MOD; norm_num
  refine ⟨?_, ?_, ?_, ?_, ?_⟩
  · intro init shape capacity a h
    unfold ndarray.fill at h
    simp only at h
    split at h
    swap
    · cases h
    obtain ⟨h1, h2⟩ := finish_ok _ _ h
    have hlen : (List.replicate (shape.foldl (fun acc x => acc * x % SIZE_MOD) 1) init).length
        < SIZE_MOD := by
      rw [List.length_replicate, foldl_mulmod]
      split
      · exact Nat.one_lt_two_pow (by norm_num)
      · exact Nat.mod_lt _ hM
    obtain ⟨h3, h4⟩ := reshape_success _ shape hlen h1
    rw [← h2, h4]
    exact h3
  · intro flat shape a hlt h
    unfold ndarray.ofFlat at h
    obtain ⟨h1, h2⟩ := finish_ok _ _ h
    obtain ⟨h3, h4⟩ := reshape_success _ _ hlt h1
    rw [← h2, h4]
    exact h3
  · intro owner v a hlt h
    unfold ndarray.ofSlice at h
    split at h
    · cases h
    · rename_i d hd
      have hdl : d.length = v._indexes.length := by
        clear h hlt
        generalize v._indexes = idx at hd
        induction idx generalizing d with
        | nil =>
          simp only [ndarray.gather] at hd
          injection hd with hd
          subst hd
          rfl
        | cons p ps ih =>
          simp only [ndarray.gather] at hd
          split at hd
          · rename_i x xs _ hxs
            injection hd with hd
            rw [← hd, List.length_cons, List.length_cons, ih xs hxs]
          · cases hd
      obtain ⟨h1, h2⟩ := finish_ok _ _ h
      obtain ⟨h3, h4⟩ := reshape_success _ _ (by show d.length < SIZE_MOD; omega) h1
      rw [← h2, h4]
      exact h3
  · intro a shape hlt hinv
    by_cases h : (a.reshape shape).1 = .ok ()
    · obtain ⟨h3, h4⟩ := reshape_success a shape hlt h
      rw [h4]
      exact h3
    · rw [(reshape_failure a shape h).1]
      exact hinv
  · intro a h hlt
    rw [← h, Nat.mod_eq_of_lt hlt]

theorem shape_product_invariant_witness :
    ndarray.fill (7 : Nat) [2, 3] 1000 = .ok ⟨[7, 7, 7, 7, 7, 7], [2, 3], [6, 3]⟩ ∧
    ([2, 3] : List Nat).prod % SIZE_MOD = [7, 7, 7, 7, 7, 7].length ∧
    (arr4.reshape [3, 2]).2._shape.prod % SIZE_MOD = (arr4.reshape [3, 2]).2.data.length :=
  ⟨by decide,
    shape_product_invariant.1 (7 : Nat) [2, 3] 1000 ⟨[7, 7, 7, 7, 7, 7], [2, 3], [6, 3]⟩
      (by decide),
    shape_product_invariant.2.2.2.1 arr4 [3, 2] (by decide) (by decide)⟩

/-- C10 (as stated, refuted): the fill constructor with the shape
`[2^32, 2^32]` (an allocator with room for 1000 elements; the request is for
none) succeeds and builds an array with an empty buffer, and the
constructor from the flat data 0..3 with the shape `[2^62 + 1, 4]` succeeds;
in both arrays the product of the shape differs from the buffer length. -/
theorem construction_accepts_wrapped_product :
    ndarray.fill (0 : Nat) [2 ^ 32, 2 ^ 32] 1000 =
      .ok { data := [], _shape := [2 ^ 32, 2 ^ 32], _size := [0, 2 ^ 32] } ∧
    ([2 ^ 32, 2 ^ 32] : List Nat).prod ≠ ([] : List Nat).length ∧
    ndarray.ofFlat (List.range 4) [2 ^ 62 + 1, 4] =
      .ok { data := [0, 1, 2, 3], _shape := [2 ^ 62 + 1, 4], _size := [4, 4] } ∧
    ([2 ^ 62 + 1, 4] : List Nat).prod ≠ (List.range 4).length := by
  decide

/-- C11: for a view produced by `slice` whose positions lie inside the owner's
buffer, scalar assignment succeeds exactly when the result shape of the view
is `[1]`. On success the view has at most one position; the owner's buffer
then holds the value at that position and is unchanged at every other
position (shape and `_size` table are untouched). Otherwise the call throws
`invalid_argument` and the owner is unchanged. -/
theorem scalar_assign_contract {T : Type} (a : ndarray T) (specs : List Spec) (v : ndslice)
    (val : T) (hv : a.slice specs = .ok v) (hin : ∀ p ∈ v._indexes, p < a.data.length) :
    ((v.assignScalar a val).1 = .ok () ↔ v._shape = [1]) ∧
    ((v.assignScalar a val).1 = .ok () →
      v._indexes.length ≤ 1 ∧
      (∀ p, v._indexes = [p] →
        (v.assignScalar a val).2 = { a with data := a.data.set p val } ∧
        (v.assignScalar a val).2.data[p]? = some val ∧
        ∀ q, q ≠ p → (v.assignScalar a val).2.data[q]? = a.data[q]?) ∧
      (v._indexes = [] → (v.assignScalar a val).2 = a)) ∧
    ((v.assignScalar a val).1 ≠ .ok () →
      (v.assignScalar a val).1 = .error .invalid_argument ∧ (v.assignScalar a val).2 = a) := by
  have hcond : (v._shape.length = 1 ∧ v._shape[0]? = some 1) ↔ v._shape = [1] := by
    constructor
    · rintro ⟨h1, h2⟩
      match hsh : v._shape, h1, h2 with
      | [x], _, h2 =>
        simp only [List.getElem?_cons_zero, Option.some.injEq] at h2
        rw [h2]
    · intro h
      rw [h]
      exact ⟨rfl, rfl⟩
  by_cases hs : v._shape = [1]
  · have hc := hcond.2 hs
    have hlen := slice_scalar_positions a specs v hv hs
    match hidx : v._indexes, hlen with
    | [], _ =>
      have hres : v.assignScalar a val = (.ok (), a) := by
        simp only [ndslice.assignScalar, hc, and_self, if_true, hidx, ndslice.fillAt]
      rw [hres]
      refine ⟨⟨fun _ => hs, fun _ => rfl⟩, fun _ => ⟨Nat.zero_le _, ?_, fun _ => rfl⟩, ?_⟩
      · intro p e
        cases e
      · intro h
        exact absurd rfl h
    | [p], _ =>
      have hp : p < a.data.length := hin p (by rw [hidx]; exact List.mem_singleton.2 rfl)
      have hres : v.assignScalar a val = (.ok (), { a with data := a.data.set p val }) := by
        simp only [ndslice.assignScalar, hc, and_self, if_true, hidx, ndslice.fillAt, hp,
          List.length_set]
      rw [hres]
      refine ⟨⟨fun _ => hs, fun _ => rfl⟩, fun _ => ⟨Nat.le_refl _, ?_, ?_⟩, ?_⟩
      · intro p' e
        injection e with e _
        subst e
        refine ⟨rfl, ?_, ?_⟩
        · simp [List.getElem?_set, hp]
        · intro q hq
          exact List.getElem?_set_ne (fun e => hq e.symm)
      · intro e
        cases e
      · intro h
        exact absurd rfl h
    | _ :: _ :: _, hl =>
      simp only [List.length_cons] at hl
      omega
  · have hc : ¬ (v._shape.length = 1 ∧ v._shape[0]? = some 1) := fun h => hs (hcond.1 h)
    have hres : v.assignScalar a val = (.error .invalid_argument, a) := by
      simp only [ndslice.assignScalar, if_neg hc]
    rw [hres]
    refine ⟨⟨fun h => ?_, fun h => absurd h hs⟩, fun h => ?_, fun _ => ⟨rfl, rfl⟩⟩
    · cases h
    · cases h

theorem scalar_assign_contract_witness :
    (arr44.slice [Spec.index 1, Spec.index 2] = .ok view44_1_2 ∧
      ∀ p ∈ view44_1_2._indexes, p < arr44.data.length) ∧
    (view44_1_2.assignScalar arr44 99).1 = .ok () ∧
    (view44_1_2.assignScalar arr44 99).2 = { arr44 with data := arr44.data.set 6 99 } :=
  ⟨⟨by decide, by decide⟩,
    (scalar_assign_contract arr44 [Spec.index 1, Spec.index 2] view44_1_2 99 (by decide)
      (by decide)).1.2 (by decide),
    (((scalar_assign_contract arr44 [Spec.index 1, Spec.index 2] view44_1_2 99 (by decide)
      (by decide)).2.1 (by decide)).2.1 6 (by decide)).1⟩

/-- C12: in a dimension of size n ≥ 1, a `RANGE(begin, end, step)` with
step ≥ 1 whose bounds wrap to `0 ≤ begin ≤ end < n` (positions are `int`
values) resolves to exactly `⌊(end-begin)/step⌋+1` positions, the k-th being
`begin + k*step`, none above `end`; `RANGE(b,e)` is `RANGE(b,e,1)`; `ALL`
resolves to `0, 1, ..., n-1`, like `RANGE(0, n-1, 1)`; `RANGE(0,0)` resolves to
the single position 0. -/
theorem range_resolution {T : Type} (a : ndarray T) (d n : Nat) (b e s : Int)
    (hd : a._shape[d]? = some n) (hn : 1 ≤ n) (hs : 1 ≤ s) (hsint : s < 2 ^ 31)
    (hb : 0 ≤ wrapIndex b n) (hbe : wrapIndex b n ≤ wrapIndex e n)
    (_hen : wrapIndex e n < n) (heint : wrapIndex e n < 2 ^ 31) :
    (∃ L, a.level d (.rangeStep b e s) = .ok L ∧
      (L.length : Int) = (wrapIndex e n - wrapIndex b n) / s + 1 ∧
      ∀ (k : Nat) (hk : k < L.length),
        (L[k] : Int) = wrapIndex b n + k * s ∧ (L[k] : Int) ≤ wrapIndex e n) ∧
    a.level d (.range b e) = a.level d (.rangeStep b e 1) ∧
    ((n : Int) - 1 < 2 ^ 31 →
      a.level d ALL = .ok (List.range n) ∧
      a.level d ALL = a.level d (.rangeStep 0 ((n : Int) - 1) 1)) ∧
    a.level d (.range 0 0) = .ok [0] := by
  refine ⟨?_, level_range_eq a d b e, ?_, ?_⟩
  · refine ⟨_, level_rangeStep_spec a d n b e s hd hs hsint hb hbe heint, ?_, ?_⟩
    · obtain ⟨rb, hrb⟩ := Int.eq_ofNat_of_zero_le hb
      obtain ⟨re, hre⟩ := Int.eq_ofNat_of_zero_le (le_trans hb hbe)
      obtain ⟨st, hst⟩ := Int.eq_ofNat_of_zero_le (le_trans (by decide : (0 : Int) ≤ 1) hs)
      have h1 : rb ≤ re := by omega
      rw [List.length_map, List.length_range, hrb, hre, hst]
      simp only [Int.toNat_ofNat]
      push_cast [Nat.cast_sub h1]
      rfl
    · intro k hk
      rw [List.length_map, List.length_range] at hk
      obtain ⟨rb, hrb⟩ := Int.eq_ofNat_of_zero_le hb
      obtain ⟨re, hre⟩ := Int.eq_ofNat_of_zero_le (le_trans hb hbe)
      obtain ⟨st, hst⟩ := Int.eq_ofNat_of_zero_le (le_trans (by decide : (0 : Int) ≤ 1) hs)
      have h1 : rb ≤ re := by omega
      have h2 : re < 2 ^ 31 := by omega
      have h3 : 1 ≤ st := by omega
      have hE : EXACT_DOUBLE = 2 ^ 53 := rfl
      simp only [hrb, hre, hst, Int.toNat_ofNat] at hk ⊢
      have hle := (range_incl_spec rb re st h3 h1 (by omega)).2 k hk
      simp only [List.getElem_map, List.getElem_range]
      constructor
      · push_cast
        rw [Int.mul_comm]
      · exact_mod_cast hle
  · intro hint
    have hw0 : wrapIndex 0 n = 0 := rfl
    have hw1 : wrapIndex (-1) n = (n : Int) - 1 := by
      unfold wrapIndex
      rw [if_pos (by decide)]
      omega
    have hw2 : wrapIndex ((n : Int) - 1) n = (n : Int) - 1 := by
      unfold wrapIndex
      rw [if_neg (by omega)]
    have hA := level_rangeStep_spec a d n 0 (-1) 1 hd (by decide) (by decide)
      (by rw [hw0]) (by rw [hw0, hw1]; omega) (by rw [hw1]; exact hint)
    have hB := level_rangeStep_spec a d n 0 ((n : Int) - 1) 1 hd (by decide) (by decide)
      (by rw [hw0]) (by rw [hw0, hw2]; omega) (by rw [hw2]; exact hint)
    rw [hw0, hw1] at hA
    rw [hw0, hw2] at hB
    have hALL : a.level d ALL = a.level d (.rangeStep 0 (-1) 1) := level_range_eq a d 0 (-1)
    rw [hALL, hA, hB]
    refine ⟨?_, rfl⟩
    have hnat : ((n : Int) - 1).toNat = n - 1 := by omega
    simp only [hnat, Int.toNat_zero, Nat.sub_zero, Int.toNat_one, Nat.div_one, Nat.zero_add,
      Nat.one_mul, List.map_id', Nat.sub_add_cancel hn]
  · rw [level_range_eq]
    have hw0 : wrapIndex 0 n = 0 := rfl
    have hA := level_rangeStep_spec a d n 0 0 1 hd (by decide) (by decide)
      (by rw [hw0]) (by rw [hw0]) (by rw [hw0]; decide)
    rw [hA, hw0]
    rfl

theorem range_resolution_witness :
    (arr44._shape[1]? = some 4 ∧ 1 ≤ 4 ∧ (1 : Int) ≤ 2 ∧ (2 : Int) < 2 ^ 31 ∧
      0 ≤ wrapIndex (-4) 4 ∧ wrapIndex (-4) 4 ≤ wrapIndex (-1) 4 ∧
      wrapIndex (-1) 4 < (4 : Nat) ∧ wrapIndex (-1) 4 < 2 ^ 31) ∧
    arr44.level 1 (.rangeStep (-4) (-1) 2) = .ok [0, 2] ∧
    arr44.level 1 ALL = .ok (List.range 4) :=
  ⟨⟨by decide, by decide, by decide, by decide, by decide, by decide, by decide, by decide⟩,
    by decide,
    ((range_resolution arr44 1 4 (-4) (-1) 2 (by decide) (by decide) (by decide) (by decide)
      (by decide) (by decide) (by decide) (by decide)).2.2.1 (by decide)).1⟩

/-- C13: in every dimension `d`, of size `n = shape[d]`, and for every `v`
with `-n ≤ v < 0`, `level` resolves the index `v` to the position `v + n`,
like the index `v + n`; it resolves a `LIST` with entries in `[-n, n)` entry
by entry in the order given, a negative entry `v` to `v + n`; and `slice` with
the index `-1` in dimension `d` returns the same view as with the index
`shape[d] - 1`. -/
theorem negative_wrap_in_specifiers {T : Type} (a : ndarray T) (d n : Nat)
    (hd : a._shape[d]? = some n) (hn : n < SIZE_MOD) :
    (∀ v : Int, -(n : Int) ≤ v → v < 0 →
      a.level d (.index v) = .ok [(v + n).toNat] ∧
      a.level d (.index v) = a.level d (.index (v + n))) ∧
    (∀ l : List Int, (∀ x ∈ l, -(n : Int) ≤ x ∧ x < n) →
      a.level d (.list l) = .ok (l.map fun x => (wrapIndex x n).toNat)) ∧
    (1 ≤ n → ∀ pre post : List Spec, pre.length = d →
      a.slice (pre ++ Spec.index (-1) :: post) =
        a.slice (pre ++ Spec.index ((n : Int) - 1) :: post)) := by
  have hM : SIZE_MOD = 2 ^ 64 := rfl
  have hidx : ∀ v : Int, -(n : Int) ≤ v → v < 0 →
      a.level d (.index v) = .ok [(v + n).toNat] ∧
      a.level d (.index v) = a.level d (.index (v + n)) := by
    intro v h0 h1
    have hnn : ¬ (v + (n : Int) < 0) := by omega
    have hA : a.level d (.index v) = .ok [(v + n).toNat] := by
      simp only [ndarray.level, h1, if_true, hd]
      rw [toSizeT_of_nonneg _ (by omega) (by omega)]
    have hB : a.level d (.index (v + n)) = .ok [(v + n).toNat] := by
      simp only [ndarray.level, hnn, if_false]
      rw [toSizeT_of_nonneg _ (by omega) (by omega)]
    exact ⟨hA, by rw [hA, hB]⟩
  refine ⟨hidx, ?_, ?_⟩
  · intro l hl
    simp only [ndarray.level, hd]
    congr 1
    apply List.map_congr_left
    intro x hx
    obtain ⟨h0, h1⟩ := hl x hx
    unfold wrapIndex
    split
    · exact toSizeT_of_nonneg _ (by omega) (by omega)
    · exact toSizeT_of_nonneg _ (by omega) (by omega)
  · intro h1 pre post hpre
    have hlev : a.level (0 + pre.length) (Spec.index (-1)) =
        a.level (0 + pre.length) (Spec.index ((n : Int) - 1)) := by
      have e : (-1 : Int) + n = (n : Int) - 1 := by omega
      rw [Nat.zero_add, hpre, (hidx (-1) (by omega) (by decide)).2, e]
    simp only [ndarray.slice, slice_rec_congr a _ _ post pre 0 [] hlev]

theorem negative_wrap_in_specifiers_witness :
    (arr44._shape[0]? = some 4 ∧ 4 < SIZE_MOD) ∧
    arr44.level 0 (.index (-1)) = .ok [3] ∧
    arr44.level 0 (.list [-1, 0, -4, 2]) = .ok [3, 0, 0, 2] ∧
    arr44.slice [Spec.index (-1), ALL] = arr44.slice [Spec.index 3, ALL] :=
  ⟨⟨by decide, by decide⟩,
    ((negative_wrap_in_specifiers arr44 0 4 (by decide) (by decide)).1 (-1) (by decide)
      (by decide)).1,
    (negative_wrap_in_specifiers arr44 0 4 (by decide) (by decide)).2.1 [-1, 0, -4, 2]
      (by decide),
    (negative_wrap_in_specifiers arr44 0 4 (by decide) (by decide)).2.2 (by decide) [] [ALL]
      rfl⟩

/-- C14 (amended): for every shape of rank ≥ 1 with `size_t` entries, the
fill constructor raises no shape error. It asks for a buffer of
`product(shape)` modulo `2 ^ 64` elements, which is `product(shape)` when the
product is below `2 ^ 64`. When the allocator can provide that many elements
the constructor succeeds: the array has that shape and a buffer of that many
copies of the fill value. When it cannot, no array is built (an allocation
failure). A shape with a zero dimension asks for no element and is accepted
whatever the allocator can provide: the buffer is empty. -/
theorem fill_constructs {T : Type} (init : T) (shape : List Nat) (capacity : Nat)
    (hrank : shape ≠ []) (hentries : ∀ n ∈ shape, n < SIZE_MOD) :
    (shape.prod % SIZE_MOD ≤ capacity →
      ndarray.fill init shape capacity =
        .ok { data := List.replicate (shape.prod % SIZE_MOD) init, _shape := shape,
              _size := sizeTable shape }) ∧
    (capacity < shape.prod % SIZE_MOD →
      ndarray.fill init shape capacity = .error .undefined) ∧
    (shape.prod < SIZE_MOD → List.replicate (shape.prod % SIZE_MOD) init =
      List.replicate shape.prod init) ∧
    (0 ∈ shape →
      ndarray.fill init shape capacity =
        .ok { data := [], _shape := shape, _size := sizeTable shape }) := by
  have hsize : shape.foldl (fun acc x => acc * x % SIZE_MOD) 1 = shape.prod % SIZE_MOD := by
    rw [foldl_mulmod, if_neg hrank, Nat.one_mul]
  have hok : shape.prod % SIZE_MOD ≤ capacity →
      ndarray.fill init shape capacity =
        .ok { data := List.replicate (shape.prod % SIZE_MOD) init, _shape := shape,
              _size := sizeTable shape } := by
    intro hcap
    cases shape with
    | nil => exact absurd rfl hrank
    | cons s0 rest =>
      have h2 := reshape_size s0 rest (hentries s0 (List.mem_cons_self _ _))
      simp only [ndarray.fill, hsize, hcap, if_true, ndarray.reshape, h2,
        List.length_replicate, ndarray.finish]
  refine ⟨hok, ?_, ?_, ?_⟩
  · intro hcap
    have hnot : ¬ shape.prod % SIZE_MOD ≤ capacity := by omega
    simp only [ndarray.fill, hsize, hnot, if_false]
  · intro h
    rw [Nat.mod_eq_of_lt h]
  · intro h
    have h0 : shape.prod % SIZE_MOD = 0 := by rw [List.prod_eq_zero h, Nat.zero_mod]
    have := hok (by rw [h0]; exact Nat.zero_le _)
    rw [h0] at this
    exact this

theorem fill_constructs_witness :
    (([2, 3] : List Nat) ≠ [] ∧ (∀ n ∈ ([2, 3] : List Nat), n < SIZE_MOD) ∧
      ([2, 3] : List Nat).prod % SIZE_MOD ≤ 1000 ∧ 1000 < ([2 ^ 45] : List Nat).prod % SIZE_MOD) ∧
    ndarray.fill (7 : Nat) [2, 3] 1000 =
      .ok { data := List.replicate (([2, 3] : List Nat).prod % SIZE_MOD) 7, _shape := [2, 3],
            _size := sizeTable [2, 3] } ∧
    ndarray.fill (7 : Nat) [2 ^ 45] 1000 = .error .undefined :=
  ⟨⟨by decide, by decide, by decide, by decide⟩,
    (fill_constructs (7 : Nat) [2, 3] 1000 (by decide) (by decide)).1 (by decide),
    (fill_constructs (7 : Nat) [2 ^ 45] 1000 (by decide) (by decide)).2.1 (by decide)⟩

/-- C14 (as stated, refuted): the fill constructor accepts the shapes `[0]`
and `[3, 0]`, which contain a zero dimension, and builds arrays with an empty
buffer instead of failing (shown for an allocator with room for 1000
elements; the request is for none). -/
theorem fill_accepts_zero_dimension :
    ndarray.fill (7 : Nat) [0] 1000 = .ok { data := [], _shape := [0], _size := [0] } ∧
    ndarray.fill (7 : Nat) [3, 0] 1000 =
      .ok { data := [], _shape := [3, 0], _size := [0, 0] } := by
  decide

/-- C15 (amended): sequence assignment through a view makes no length check.
With at least as many values as the view has positions, all positions inside
the owner's buffer, it succeeds: the buffer keeps its length, is unchanged at
every position outside the view, and holds `values[i]` at position
`flatPositions[i]` for every `i` whose position is not repeated later in the
view (the values are stored in view order); a value past the number of
positions is ignored. Shape and `_size` table of the owner are untouched.
The argument is a plain `valarray`: a shape of the values plays no part. -/
theorem sequence_assign_writes {T : Type} (v : ndslice) (a : ndarray T) (vals : List T)
    (hlen : v._indexes.length ≤ vals.length) (hin : ∀ p ∈ v._indexes, p < a.data.length) :
    ∃ a', v.assign a vals = .ok a' ∧ a'._shape = a._shape ∧ a'._size = a._size ∧
      a'.data.length = a.data.length ∧
      (∀ q, q ∉ v._indexes → a'.data[q]? = a.data[q]?) ∧
      ∀ (i : Nat) (hi : i < v._indexes.length) (hv : i < vals.length),
        (∀ (j : Nat) (hj : j < v._indexes.length), i < j → v._indexes[j] ≠ v._indexes[i]) →
        a'.data[v._indexes[i]]? = some vals[i] := by
  have hsc := scatter_eq_foldl v._indexes vals a.data hlen hin
  refine ⟨{ a with data := (v._indexes.zip vals).foldl (fun acc w => acc.set w.1 w.2) a.data },
    by simp only [ndslice.assign, hsc], rfl, rfl, foldl_set_length _ _, ?_, ?_⟩
  · intro q hq
    apply foldl_set_untouched
    intro y hy
    exact hq (List.of_mem_zip hy).1
  · intro i hi hv hlast
    have hz : i < (v._indexes.zip vals).length := by
      rw [List.length_zip]
      omega
    have hzi : (v._indexes.zip vals)[i] = (v._indexes[i], vals[i]) := List.getElem_zip
    have h := foldl_set_last (v._indexes.zip vals) a.data i hz
      (by
        intro j hj hij
        have hj' : j < v._indexes.length := by
          rw [List.length_zip] at hj
          omega
        have hzj : ((v._indexes.zip vals)[j]).1 = v._indexes[j] := by
          rw [List.getElem_zip]
        rw [hzi, hzj]
        exact hlast j hj' hij)
      (by rw [hzi]; exact hin _ (List.getElem_mem hi))
    rw [hzi] at h
    exact h

theorem sequence_assign_writes_witness :
    (([1, 2, 3, 13, 14, 15] : List Nat).length ≤ [70, 71, 72, 73, 74, 75].length ∧
      ∀ p ∈ ([1, 2, 3, 13, 14, 15] : List Nat), p < arr44.data.length) ∧
    ∃ a', (⟨[1, 2, 3, 13, 14, 15], [2, 3]⟩ : ndslice).assign arr44 [70, 71, 72, 73, 74, 75]
        = .ok a' ∧ a'._shape = arr44._shape ∧ a'._size = arr44._size ∧
      a'.data.length = arr44.data.length ∧
      (∀ q, q ∉ ([1, 2, 3, 13, 14, 15] : List Nat) → a'.data[q]? = arr44.data[q]?) :=
  ⟨⟨by decide, by decide⟩,
    match sequence_assign_writes ⟨[1, 2, 3, 13, 14, 15], [2, 3]⟩ arr44
      [70, 71, 72, 73, 74, 75] (by decide) (by decide) with
    | ⟨a', h1, h2, h3, h4, h5, _⟩ => ⟨a', h1, h2, h3, h4, h5⟩⟩

/-- C15 (as stated, refuted): on the array built from the flat data 0..3, the
view `slice(RANGE(0,1))` has the two positions 0, 1; assigning the three
values 7, 8, 9 through it does not fail: the call succeeds and the buffer
becomes 7, 8, 2, 3. -/
theorem sequence_assign_no_length_check :
    arr4.slice [RANGE 0 1] = .ok ⟨[0, 1], [2]⟩ ∧
    (⟨[0, 1], [2]⟩ : ndslice).assign arr4 [7, 8, 9] =
      .ok { arr4 with data := [7, 8, 2, 3] } ∧
    ([7, 8, 2, 3] : List Nat) ≠ arr4.data := by
  decide

/-- C16: for every sequence of integers, `unique` with the default equality
and less-than returns a strictly ascending sequence (so each value appears
once) whose elements are exactly the values occurring in the input; on
1,1,5,6,2,4,1,5,1,4,2,5,3,7 it returns 1,2,3,4,5,6,7. -/
theorem unique_sorted_distinct (l : List Int) :
    (unique l _equals std_less).Pairwise (fun a b => a < b) ∧
    (unique l _equals std_less).Nodup ∧
    (∀ x, x ∈ unique l _equals std_less ↔ x ∈ l) ∧
    unique [1, 1, 5, 6, 2, 4, 1, 5, 1, 4, 2, 5, 3, 7] _equals std_less =
      [1, 2, 3, 4, 5, 6, 7] := by
  have hsorted := std_sort_less_sorted l
  have hmem := std_sort_mem l
  have key : (unique l _equals std_less).Pairwise (fun a b => a < b) ∧
      (∀ x, x ∈ unique l _equals std_less ↔ x ∈ l) := by
    unfold unique sortv
    cases hl : std_sort std_less l with
    | nil =>
      refine ⟨List.Pairwise.nil, ?_⟩
      intro x
      rw [← hmem x, hl]
      rfl
    | cons y rest =>
      rw [hl] at hsorted
      have hs' := List.pairwise_cons.1 hsorted
      obtain ⟨h1, h2, h3⟩ := std_unique_from_spec rest y hs'.2 hs'.1
      refine ⟨List.pairwise_cons.2 ⟨h2, h1⟩, ?_⟩
      intro x
      rw [← hmem x, hl]
      simp only [std_unique, List.mem_cons, h3 x]
      constructor
      · rintro (hx | ⟨hx, _⟩)
        · exact Or.inl hx
        · exact Or.inr hx
      · rintro (hx | hx)
        · exact Or.inl hx
        · by_cases hxy : x = y
          · exact Or.inl hxy
          · exact Or.inr ⟨hx, hxy⟩
  refine ⟨key.1, ?_, key.2, by decide⟩
  exact key.1.imp (fun h => ne_of_lt h)

/-- C18: `range_excl<size_t>(0, 5, 2)` returns 0, 2: the value 4 = 0 + 2*2 is
below the end 5 and is left out, the number of elements being
`⌊(end-begin)/step⌋` = 2. When the step divides `end - begin` no value is
missed: `range_excl(0, 6, 2)` returns 0, 2, 4. -/
theorem range_excl_stops_early :
    range_excl 0 5 2 = .ok [0, 2] ∧ 0 + 2 * 2 < 5 ∧ 0 + 2 * 2 ∉ [0, 2] ∧
    range_excl 0 6 2 = .ok [0, 2, 4] := by
  decide

end analysis
